import Mathlib

/-!
# Verification of the CC3XX low-level RNG driver

Shallow embedding of
`platform/ext/target/arm/drivers/cc3xx/low_level_driver/src/cc3xx_rng.c`.

Machine integers are modelled as `Nat` with explicit `% 2^w` where C
unsigned overflow/underflow matters.  Memory-mapped hardware registers
(the `P_CC3XX->rng` block) are modelled as oracles: a stream of
`rng_isr` readings for the TRNG poll loop, and an adapter record whose
fields give the results of `trng_init`, each `random_fn` refill call,
and `trng_finish`.  Fallible functions return the error code together
with the data they produced; where the C code writes through a caller
pointer only on some paths, the model returns an `Option`.
-/

namespace CC3XXRng

/-- The cc3xx error codes that appear in `cc3xx_rng.c`, plus one
stand-in constructor `hwFailure` for an arbitrary other non-success
code that a hardware adapter step could report. -/
inductive cc3xx_err_t where
  | success
  | invalidRng
  | tooManyAttempts
  | hwFailure
deriving DecidableEq, Repr

/-- `round_up` from `cc3xx_rng.c`:
`(num + boundary - 1) - ((num + boundary - 1) % boundary)`.
The C arithmetic is `uint32_t`; for the in-range arguments the driver
uses (`num ≤ pool capacity`, `boundary = 4`) no wraparound occurs, so
plain `Nat` arithmetic is faithful. -/
def round_up (num boundary : Nat) : Nat :=
  (num + boundary - 1) - ((num + boundary - 1) % boundary)

/-- `n` consecutive bytes of the backing generator's byte stream `gen`,
starting at absolute stream position `p`. -/
def streamSlice (gen : Nat → Nat) (p : Nat) : Nat → List Nat
  | 0 => []
  | n + 1 => gen p :: streamSlice gen (p + 1) n

theorem streamSlice_append (gen : Nat → Nat) :
    ∀ (a : Nat) (p b : Nat),
      streamSlice gen p a ++ streamSlice gen (p + a) b
        = streamSlice gen p (a + b) := by
  intro a
  induction a with
  | zero => intro p b; simp [streamSlice]
  | succ n ih =>
    intro p b
    simp only [streamSlice, List.cons_append]
    rw [show p + (n + 1) = (p + 1) + n by omega, ih (p + 1) b]
    rw [show n + 1 + b = (n + b) + 1 by omega]
    rfl

theorem streamSlice_length (gen : Nat → Nat) :
    ∀ (n p : Nat), (streamSlice gen p n).length = n := by
  intro n
  induction n with
  | zero => intro p; rfl
  | succ m ih => intro p; simp [streamSlice, ih]

theorem streamSlice_take (gen : Nat → Nat) :
    ∀ (c n p : Nat), c ≤ n →
      (streamSlice gen p n).take c = streamSlice gen p c := by
  intro c
  induction c with
  | zero => intro n p _; rfl
  | succ m ih =>
    intro n p h
    match n with
    | k + 1 =>
      simp only [streamSlice, List.take_succ_cons]
      rw [ih k (p + 1) (by omega)]

theorem streamSlice_drop (gen : Nat → Nat) :
    ∀ (u n p : Nat), u ≤ n →
      (streamSlice gen p n).drop u = streamSlice gen (p + u) (n - u) := by
  intro u
  induction u with
  | zero => intro n p _; simp [streamSlice]
  | succ m ih =>
    intro n p h
    match n with
    | k + 1 =>
      simp only [streamSlice, List.drop_succ_cons]
      rw [ih k (p + 1) (by omega)]
      have h1 : p + 1 + m = p + (m + 1) := by omega
      have h2 : k - m = k + 1 - (m + 1) := by omega
      rw [h1, h2]

/-- The two members of `enum cc3xx_rng_quality_t`.  The enum is closed:
the `switch` in `cc3xx_lowlevel_rng_get_random` handles exactly these
two values (its `default` arm, returning `CC3XX_ERR_RNG_INVALID_RNG`,
is unreachable for values of the enum type). -/
inductive cc3xx_rng_quality_t where
  | cryptographicallySecure
  | fast
deriving DecidableEq, Repr

/-- One of the driver's static entropy pools
(`entropy_buf`/`entropy_buf_used_idx` or `lfsr_buf`/`lfsr_buf_used_idx`)
together with a count of the refill calls made so far.  `pool` holds the
current buffer contents as bytes, `used` is the `*_used_idx` byte
offset, and `refills` indexes into the adapter oracle to select the
result/data of the next `random_fn` call. -/
structure PoolState where
  pool : List Nat
  used : Nat
  refills : Nat
deriving DecidableEq, Repr

/-- Oracle for the hardware-adapter/back-end calls that
`cc3xx_lowlevel_rng_get_random` makes: the results of `trng_init` and
`trng_finish`, and the result and produced bytes of the `k`-th
`random_fn` refill call. -/
structure Adapter where
  initRes : cc3xx_err_t
  refillRes : Nat → cc3xx_err_t
  refillData : Nat → List Nat
  finishRes : cc3xx_err_t

/-- The `while (length > 0)` loop of `cc3xx_lowlevel_rng_get_random`.
One recursive call is one loop iteration: refill the pool when
`*used_idx == max_buf_size` (on refill failure, `goto out` with the
refill's error and the bytes copied so far), copy
`min(max_buf_size - *used_idx, length)` bytes out of the pool, advance
`*used_idx` and decrement `length`.  The word-by-word copy taken when
the request is word-aligned moves exactly the same bytes as the
`memcpy`, so the model does not distinguish the two paths.  `fuel`
bounds the number of iterations; the top-level entry passes
`fuel = length`, which suffices because every iteration with
`length > 0` copies at least one byte whenever the capacity is
positive. -/
def get_random_go (ad : Adapter) (cap : Nat) :
    Nat → Nat → PoolState → List Nat → cc3xx_err_t × List Nat × PoolState
  | 0, _, st, acc => (.success, acc, st)
  | _ + 1, 0, st, acc => (.success, acc, st)
  | fuel + 1, length, st, acc =>
    if st.used = cap then
      match ad.refillRes st.refills with
      | .success =>
        let pool' := ad.refillData st.refills
        let copy := min cap length
        get_random_go ad cap fuel (length - copy)
          ⟨pool', copy, st.refills + 1⟩ (acc ++ pool'.take copy)
      | e => (e, acc, ⟨st.pool, st.used, st.refills + 1⟩)
    else
      let copy := min (cap - st.used) length
      get_random_go ad cap fuel (length - copy)
        ⟨st.pool, st.used + copy, st.refills⟩
        (acc ++ (st.pool.drop st.used).take copy)

/-- `cc3xx_lowlevel_rng_get_random`.  The `switch (quality)` of the C
function selects the pool globals, the capacity and the backing
`random_fn`; here the selected pool is the explicit state `st`, its
capacity is `cap` and the backing calls are the oracle `ad`, while
`quality` still drives the `trng_init`/`trng_finish` bracketing
condition exactly as in the source.  `bufAligned` models
`((uintptr_t)buf & 0x3) == 0` for the caller's destination pointer.
Result: the returned error code, the bytes written to the caller's
buffer, and the updated pool state.  Note the translation of the code
after `out:`: when the request was bracketed, `err = trng_finish()` is
executed last and its value is what the function returns. -/
def cc3xx_lowlevel_rng_get_random (ad : Adapter) (cap : Nat)
    (bufAligned : Bool) (length : Nat) (quality : cc3xx_rng_quality_t)
    (st : PoolState) : cc3xx_err_t × List Nat × PoolState :=
  let aligned : Bool := bufAligned && (length % 4 == 0)
  let st0 : PoolState :=
    if aligned then ⟨st.pool, round_up st.used 4, st.refills⟩ else st
  let rng_required : Bool := cap - st0.used < length
  if rng_required ∧ quality = .cryptographicallySecure
      ∧ ad.initRes ≠ .success then
    (ad.initRes, [], st0)
  else
    let r := get_random_go ad cap length length st0 []
    if rng_required ∧ quality = .cryptographicallySecure then
      (ad.finishRes, r.2.1, r.2.2)
    else
      r

/-- A deterministic, never-failing backing generator: the `k`-th
`random_fn` refill call succeeds and produces bytes
`gen (k*cap), …, gen (k*cap + cap - 1)` of the generator's byte
stream, and `trng_init`/`trng_finish` succeed. -/
def detAdapter (gen : Nat → Nat) (cap : Nat) : Adapter where
  initRes := .success
  refillRes := fun _ => .success
  refillData := fun k => streamSlice gen (k * cap) cap
  finishRes := .success

/-- Absolute position in the backing generator's byte stream of the
next byte the pool would dispense: `refills * cap` bytes have been
produced in total, of which the `cap - used` bytes still in the pool
are not yet consumed. -/
def streamPos (cap : Nat) (st : PoolState) : Nat :=
  st.refills * cap + st.used - cap

/-- Pool states reachable when the backing generator is the
deterministic `detAdapter gen cap`: the consumed offset is in range,
and either no refill has happened yet and the pool is marked fully
consumed (the boot state of `entropy_buf_used_idx`/`lfsr_buf_used_idx`),
or the pool holds the bytes of the most recent refill. -/
def Consistent (gen : Nat → Nat) (cap : Nat) (st : PoolState) : Prop :=
  st.used ≤ cap ∧
    ((st.refills = 0 ∧ st.used = cap) ∨
     (1 ≤ st.refills ∧ st.pool = streamSlice gen ((st.refills - 1) * cap) cap))

theorem get_random_go_det (gen : Nat → Nat) (cap : Nat) (hcap : 0 < cap) :
    ∀ (fuel len : Nat) (st : PoolState) (acc : List Nat), len ≤ fuel →
      Consistent gen cap st →
      ∃ st', get_random_go (detAdapter gen cap) cap fuel len st acc
          = (.success, acc ++ streamSlice gen (streamPos cap st) len, st')
        ∧ Consistent gen cap st'
        ∧ streamPos cap st' = streamPos cap st + len := by
  intro fuel
  induction fuel with
  | zero =>
    intro len st acc hlen _
    have h0 : len = 0 := Nat.le_zero.mp hlen
    subst h0
    exact ⟨st, by simp [get_random_go, streamSlice], ‹_›, by simp⟩
  | succ f ih =>
    intro len st acc hlen hst
    match len with
    | 0 =>
      exact ⟨st, by simp [get_random_go, streamSlice], hst, by simp⟩
    | l + 1 =>
      by_cases hu : st.used = cap
      · -- refill iteration
        have hcopyc : min cap (l + 1) ≤ cap := Nat.min_le_left _ _
        have hpos : streamPos cap st = st.refills * cap := by
          simp only [streamPos, hu]
          omega
        have hst1 : Consistent gen cap
            ⟨streamSlice gen (st.refills * cap) cap, min cap (l + 1),
              st.refills + 1⟩ :=
          ⟨hcopyc, Or.inr ⟨Nat.le_add_left 1 st.refills, by simp⟩⟩
        have hpos1 : streamPos cap
            ⟨streamSlice gen (st.refills * cap) cap, min cap (l + 1),
              st.refills + 1⟩
              = streamPos cap st + min cap (l + 1) := by
          simp only [streamPos, hu, Nat.succ_mul]
          omega
        obtain ⟨st', heq, hst', hpos'⟩ :=
          ih (l + 1 - min cap (l + 1))
            ⟨streamSlice gen (st.refills * cap) cap, min cap (l + 1),
              st.refills + 1⟩
            (acc ++ streamSlice gen (st.refills * cap) (min cap (l + 1)))
            (by omega) hst1
        refine ⟨st', ?_, hst', ?_⟩
        · show get_random_go (detAdapter gen cap) cap (f + 1) (l + 1) st acc = _
          rw [show get_random_go (detAdapter gen cap) cap (f + 1) (l + 1) st acc
              = get_random_go (detAdapter gen cap) cap f (l + 1 - min cap (l + 1))
                  ⟨streamSlice gen (st.refills * cap) cap, min cap (l + 1),
                    st.refills + 1⟩
                  (acc ++ (streamSlice gen (st.refills * cap) cap).take
                      (min cap (l + 1)))
            from by simp [get_random_go, hu, detAdapter]]
          rw [streamSlice_take gen (min cap (l + 1)) cap _ hcopyc]
          rw [heq, hpos1, hpos, List.append_assoc,
              streamSlice_append gen (min cap (l + 1)) (st.refills * cap)
                (l + 1 - min cap (l + 1)),
              show min cap (l + 1) + (l + 1 - min cap (l + 1)) = l + 1 by omega]
        · rw [hpos', hpos1]
          omega
      · -- serve from the current pool contents
        have hused : st.used < cap := Nat.lt_of_le_of_ne hst.1 hu
        obtain ⟨r', hr'⟩ : ∃ r', st.refills = r' + 1 := by
          rcases hst.2 with ⟨_, h2⟩ | ⟨h1, _⟩
          · omega
          · exact ⟨st.refills - 1, by omega⟩
        have hpool : st.pool = streamSlice gen (r' * cap) cap := by
          rcases hst.2 with ⟨_, h2⟩ | ⟨_, h2⟩
          · omega
          · rw [h2, hr']; simp
        have hcopyc : min (cap - st.used) (l + 1) ≤ cap - st.used :=
          Nat.min_le_left _ _
        have hrc : st.refills * cap = r' * cap + cap := by
          rw [hr', Nat.succ_mul]
        have hpos : streamPos cap st = r' * cap + st.used := by
          simp only [streamPos]
          rw [hrc]
          omega
        have hst1 : Consistent gen cap
            ⟨st.pool, st.used + min (cap - st.used) (l + 1), st.refills⟩ := by
          refine ⟨show st.used + min (cap - st.used) (l + 1) ≤ cap by omega,
            Or.inr ⟨show 1 ≤ st.refills by omega, ?_⟩⟩
          show st.pool = _
          rw [hpool, hr']
          simp
        have hpos1 : streamPos cap
            ⟨st.pool, st.used + min (cap - st.used) (l + 1), st.refills⟩
              = streamPos cap st + min (cap - st.used) (l + 1) := by
          simp only [streamPos]
          rw [hrc]
          omega
        obtain ⟨st', heq, hst', hpos'⟩ :=
          ih (l + 1 - min (cap - st.used) (l + 1))
            ⟨st.pool, st.used + min (cap - st.used) (l + 1), st.refills⟩
            (acc ++ streamSlice gen (r' * cap + st.used)
                (min (cap - st.used) (l + 1)))
            (by omega) hst1
        refine ⟨st', ?_, hst', ?_⟩
        · show get_random_go (detAdapter gen cap) cap (f + 1) (l + 1) st acc = _
          rw [show get_random_go (detAdapter gen cap) cap (f + 1) (l + 1) st acc
              = get_random_go (detAdapter gen cap) cap f
                  (l + 1 - min (cap - st.used) (l + 1))
                  ⟨st.pool, st.used + min (cap - st.used) (l + 1), st.refills⟩
                  (acc ++ (st.pool.drop st.used).take
                      (min (cap - st.used) (l + 1)))
            from by simp [get_random_go, hu]]
          rw [show (st.pool.drop st.used).take (min (cap - st.used) (l + 1))
              = streamSlice gen (r' * cap + st.used)
                  (min (cap - st.used) (l + 1)) from by
            rw [hpool, streamSlice_drop gen st.used cap _ (le_of_lt hused),
                streamSlice_take gen (min (cap - st.used) (l + 1))
                  (cap - st.used) _ hcopyc]]
          rw [heq, hpos1, hpos, List.append_assoc,
              streamSlice_append gen (min (cap - st.used) (l + 1))
                (r' * cap + st.used) (l + 1 - min (cap - st.used) (l + 1)),
              show min (cap - st.used) (l + 1)
                  + (l + 1 - min (cap - st.used) (l + 1)) = l + 1 by omega]
        · rw [hpos', hpos1]
          omega

/-- Stream positions skipped by the word-alignment adjustment
`*used_idx = round_up(*used_idx, sizeof(uint32_t))` that
`cc3xx_lowlevel_rng_get_random` applies when the destination buffer and
the length are both word-aligned: the documented alignment-discard
bytes. -/
def alignGap (aligned : Bool) (p : Nat) : Nat :=
  if aligned then round_up p 4 - p else 0

theorem round_up_add_of_mod (x y : Nat) (h : y % 4 = 0) :
    round_up (x + y) 4 = round_up x 4 + y := by
  simp only [round_up]
  omega

theorem alignGap_lt (a : Bool) (p : Nat) : alignGap a p < 4 := by
  cases a
  · show (0 : Nat) < 4
    omega
  · show round_up p 4 - p < 4
    simp only [round_up]
    omega

theorem pos_add_alignGap (p : Nat) : p + alignGap true p = round_up p 4 := by
  simp only [alignGap, round_up, if_pos]
  omega

/-- Discarding the unaligned leftover bytes preserves consistency and
moves the stream position to the next word boundary. -/
theorem align_adjust (gen : Nat → Nat) (cap : Nat) (hmod : cap % 4 = 0)
    (st : PoolState) (hst : Consistent gen cap st) :
    Consistent gen cap ⟨st.pool, round_up st.used 4, st.refills⟩
    ∧ streamPos cap ⟨st.pool, round_up st.used 4, st.refills⟩
        = round_up (streamPos cap st) 4 := by
  rcases hst with ⟨hle, hc | hc⟩
  · have h1 : round_up st.used 4 = cap := by
      rw [hc.2]
      simp only [round_up]
      omega
    refine ⟨⟨?_, Or.inl ⟨hc.1, h1⟩⟩, ?_⟩
    · show round_up st.used 4 ≤ cap
      omega
    · show st.refills * cap + round_up st.used 4 - cap = _
      have h2 : streamPos cap st = 0 := by
        simp only [streamPos, hc.1, hc.2]
        omega
      rw [h1, h2, hc.1]
      simp only [round_up, Nat.zero_mul]
      omega
  · obtain ⟨r', hr'⟩ : ∃ r', st.refills = r' + 1 := ⟨st.refills - 1, by omega⟩
    have hrc : st.refills * cap = r' * cap + cap := by rw [hr', Nat.succ_mul]
    obtain ⟨m, hm⟩ : 4 ∣ cap := Nat.dvd_of_mod_eq_zero hmod
    have hrm : r' * cap % 4 = 0 := by
      rw [hm, show r' * (4 * m) = 4 * (r' * m) by ring]
      exact Nat.mul_mod_right 4 (r' * m)
    have hru : round_up st.used 4 ≤ cap := by
      simp only [round_up]
      omega
    refine ⟨⟨hru, Or.inr ⟨hc.1, hc.2⟩⟩, ?_⟩
    have hpos : streamPos cap st = st.used + r' * cap := by
      simp only [streamPos]
      rw [hrc]
      omega
    show st.refills * cap + round_up st.used 4 - cap = _
    rw [hpos, round_up_add_of_mod st.used (r' * cap) hrm, hrc]
    omega

/-- When `trng_init` and `trng_finish` succeed and the copy loop exits
without a refill error, `cc3xx_lowlevel_rng_get_random` reduces to its
copy loop run from the (possibly alignment-adjusted) pool state. -/
theorem get_random_unfold (ad : Adapter) (cap : Nat) (bufAligned : Bool)
    (len : Nat) (q : cc3xx_rng_quality_t) (st st0 : PoolState)
    (hst0 : st0 = (if (bufAligned && (len % 4 == 0) : Bool)
        then (⟨st.pool, round_up st.used 4, st.refills⟩ : PoolState) else st))
    (hinit : ad.initRes = .success) (hfin : ad.finishRes = .success)
    (herr : (get_random_go ad cap len len st0 []).1 = .success) :
    cc3xx_lowlevel_rng_get_random ad cap bufAligned len q st
      = get_random_go ad cap len len st0 [] := by
  simp only [cc3xx_lowlevel_rng_get_random, ← hst0]
  split
  · next h => exact absurd hinit h.2.2
  · split
    · rw [hfin, ← herr]
    · rfl

/-- A single `cc3xx_lowlevel_rng_get_random` call against the
deterministic adapter succeeds and returns exactly the next `len`
stream bytes, after the alignment gap. -/
theorem get_random_det_spec (gen : Nat → Nat) (cap : Nat) (hcap : 0 < cap)
    (hmod : cap % 4 = 0) (bufAligned : Bool) (len : Nat)
    (q : cc3xx_rng_quality_t) (st : PoolState) (hst : Consistent gen cap st) :
    ∃ st',
      cc3xx_lowlevel_rng_get_random (detAdapter gen cap) cap bufAligned len q st
        = (.success,
           streamSlice gen
             (streamPos cap st
               + alignGap (bufAligned && (len % 4 == 0)) (streamPos cap st))
             len,
           st')
      ∧ Consistent gen cap st'
      ∧ streamPos cap st'
          = streamPos cap st
            + alignGap (bufAligned && (len % 4 == 0)) (streamPos cap st)
            + len := by
  by_cases ha : (bufAligned && (len % 4 == 0)) = true
  · obtain ⟨hst0, hpos0⟩ := align_adjust gen cap hmod st hst
    obtain ⟨st', hgo, hst', hpos'⟩ :=
      get_random_go_det gen cap hcap len len
        ⟨st.pool, round_up st.used 4, st.refills⟩ [] (le_refl len) hst0
    have hgap : streamPos cap
          (⟨st.pool, round_up st.used 4, st.refills⟩ : PoolState)
        = streamPos cap st
          + alignGap (bufAligned && (len % 4 == 0)) (streamPos cap st) := by
      rw [hpos0, ha, pos_add_alignGap]
    refine ⟨st', ?_, hst', ?_⟩
    · rw [get_random_unfold (detAdapter gen cap) cap bufAligned len q st
          ⟨st.pool, round_up st.used 4, st.refills⟩ (by rw [ha]; rfl) rfl rfl
          (by rw [hgo]), hgo, hgap]
      simp only [List.nil_append]
    · rw [hpos', hgap]
  · have hb : (bufAligned && (len % 4 == 0)) = false := by
      revert ha
      cases (bufAligned && (len % 4 == 0)) <;> simp
    obtain ⟨st', hgo, hst', hpos'⟩ :=
      get_random_go_det gen cap hcap len len st [] (le_refl len) hst
    refine ⟨st', ?_, hst', ?_⟩
    · rw [get_random_unfold (detAdapter gen cap) cap bufAligned len q st st
          (by rw [hb]; rfl) rfl rfl (by rw [hgo]), hgo, hb]
      simp [alignGap]
    · rw [hb]
      simpa [alignGap] using hpos'

/-- C2: for any two consecutive `cc3xx_lowlevel_rng_get_random` calls
at the same quality against a deterministic backing generator, no
buffered byte is dispensed twice from the same unrefilled pool window:
each call returns success and outputs a contiguous slice of the backing
generator's byte stream, the second slice starting exactly where the
first ended except for the bytes discarded by the documented
word-alignment adjustment of the consumed offset (a gap of fewer than
4 bytes, zero when the request is not word-aligned), so the
concatenation of the two outputs reproduces the generator's stream with
no byte repeated or skipped apart from those alignment-discard bytes. -/
theorem rng_C2_no_double_dispense
    (gen : Nat → Nat) (cap : Nat) (q : cc3xx_rng_quality_t) (st : PoolState)
    (a1 : Bool) (len1 : Nat) (a2 : Bool) (len2 : Nat)
    (hcap : 0 < cap) (hmod : cap % 4 = 0) (hst : Consistent gen cap st) :
    ∃ st1 st2,
      cc3xx_lowlevel_rng_get_random (detAdapter gen cap) cap a1 len1 q st
        = (.success,
           streamSlice gen
             (streamPos cap st
               + alignGap (a1 && (len1 % 4 == 0)) (streamPos cap st)) len1,
           st1)
      ∧ cc3xx_lowlevel_rng_get_random (detAdapter gen cap) cap a2 len2 q st1
          = (.success,
             streamSlice gen
               (streamPos cap st
                 + alignGap (a1 && (len1 % 4 == 0)) (streamPos cap st) + len1
                 + alignGap (a2 && (len2 % 4 == 0))
                     (streamPos cap st
                       + alignGap (a1 && (len1 % 4 == 0)) (streamPos cap st)
                       + len1)) len2,
             st2)
      ∧ alignGap (a1 && (len1 % 4 == 0)) (streamPos cap st) < 4
      ∧ alignGap (a2 && (len2 % 4 == 0))
          (streamPos cap st
            + alignGap (a1 && (len1 % 4 == 0)) (streamPos cap st) + len1)
          < 4 := by
  obtain ⟨st1, h1, hst1, hp1⟩ :=
    get_random_det_spec gen cap hcap hmod a1 len1 q st hst
  obtain ⟨st2, h2, _, _⟩ :=
    get_random_det_spec gen cap hcap hmod a2 len2 q st1 hst1
  rw [hp1] at h2
  exact ⟨st1, st2, h1, h2, alignGap_lt _ _, alignGap_lt _ _⟩

/-- A concrete deterministic byte stream used by the witnesses. -/
def witGen : Nat → Nat := fun i => i % 256

theorem rng_C2_witness :
    ∃ st1 st2,
      cc3xx_lowlevel_rng_get_random (detAdapter witGen 8) 8 false 5
          .fast ⟨[], 8, 0⟩
        = (.success, streamSlice witGen 0 5, st1)
      ∧ cc3xx_lowlevel_rng_get_random (detAdapter witGen 8) 8 true 8
          .fast st1
        = (.success, streamSlice witGen 8 8, st2)
      ∧ alignGap (false && (5 % 4 == 0)) 0 < 4
      ∧ alignGap (true && (8 % 4 == 0)) 5 < 4 :=
  rng_C2_no_double_dispense witGen 8 .fast ⟨[], 8, 0⟩ false 5 true 8
    (by decide) (by decide) ⟨by decide, Or.inl ⟨rfl, rfl⟩⟩

/-- Adapter exhibiting a hardware-adapter failure inside the copy loop:
`trng_init` succeeds, the first refill call (`trng_get_random`) fails
with `CC3XX_ERR_RNG_TOO_MANY_ATTEMPTS`, and `trng_finish` succeeds. -/
def refillFailAdapter : Adapter where
  initRes := .success
  refillRes := fun _ => .tooManyAttempts
  refillData := fun _ => List.replicate 24 0
  finishRes := .success

/-- C3: the claim that an adapter failure inside
`cc3xx_lowlevel_rng_get_random` is never converted into
`CC3XX_ERR_SUCCESS` is violated by the code: for a
cryptographically-secure request of 4 bytes from the boot state (pool
capacity 24, fully consumed), when the backing `trng_get_random` refill
fails the loop exits via `goto out` with the refill's error, but the
`err = trng_finish()` assignment after `out:` overwrites that error,
and the function returns `CC3XX_ERR_SUCCESS` with no bytes having been
written to the caller's buffer. -/
theorem rng_C3_refill_error_masked :
    cc3xx_lowlevel_rng_get_random refillFailAdapter 24 false 4
        .cryptographicallySecure ⟨[], 24, 0⟩
      = (.success, [], ⟨[], 24, 1⟩)
    ∧ refillFailAdapter.refillRes 0 ≠ .success := by
  exact ⟨by decide, by decide⟩

/-- The do/while poll loop of `trng_get_random`.  Each loop iteration
reads the volatile `rng_isr` register twice: `r1` for the
statistical-failure check (`rng_isr & 0xE`: at least one test failed,
so reset the bit counter, clear the interrupts and count an attempt)
and `r2` for the loop condition (`rng_isr & 0x1`: EHR_VALID).  `reads`
supplies the pairs of readings, one per iteration; the result is the
final `attempt_count` when the loop exits, or `none` if the supplied
readings are exhausted (the busy-wait would keep polling). -/
def trng_poll_loop (maxAttempts : Nat) :
    List (Nat × Nat) → Nat → Option Nat
  | [], _ => none
  | (r1, r2) :: rest, attempts =>
    let a' := if r1 &&& 0xE ≠ 0 then attempts + 1 else attempts
    if r2 &&& 0x1 = 0 ∧ a' < maxAttempts then
      trng_poll_loop maxAttempts rest a'
    else
      some a'

/-- Result of `trng_get_random`: the returned error code, the words
written through `buf` (`none` when the buffer is not written), and the
number of `FATAL_ERR` invocations. -/
structure TrngOut where
  err : cc3xx_err_t
  buf : Option (List Nat)
  fatalCount : Nat
deriving DecidableEq, Repr

/-- `trng_get_random` from `cc3xx_rng.c`.  After the poll loop, if
`attempt_count == CC3XX_CONFIG_RNG_MAX_ATTEMPTS` the function calls
`trng_finish`, reports `FATAL_ERR(CC3XX_ERR_RNG_TOO_MANY_ATTEMPTS)` and
returns that code without writing `buf`; otherwise it clears the
interrupt state and copies the `ehr_data` register words (whose read
restarts the generator) into `buf` and returns success.  `ehr_data` is
the snapshot of the entropy registers at that read. -/
def trng_get_random (maxAttempts : Nat) (ehr_data : List Nat)
    (reads : List (Nat × Nat)) : Option TrngOut :=
  match trng_poll_loop maxAttempts reads 0 with
  | none => none
  | some attempts =>
    if attempts = maxAttempts then
      some ⟨.tooManyAttempts, none, 1⟩
    else
      some ⟨.success, some ehr_data, 0⟩

theorem trng_poll_loop_cons (maxAttempts r1 r2 a : Nat)
    (rest : List (Nat × Nat)) :
    trng_poll_loop maxAttempts ((r1, r2) :: rest) a
      = if r2 &&& 0x1 = 0
            ∧ (if r1 &&& 0xE ≠ 0 then a + 1 else a) < maxAttempts then
          trng_poll_loop maxAttempts rest
            (if r1 &&& 0xE ≠ 0 then a + 1 else a)
        else some (if r1 &&& 0xE ≠ 0 then a + 1 else a) := rfl

/-- Running the poll loop through a block of consecutive failing polls
(failure bit set, valid bit clear) adds the block length to the attempt
counter, exiting with `some maxAttempts` as soon as the counter reaches
the maximum. -/
theorem trng_poll_fail_run (maxAttempts : Nat) :
    ∀ (polls rest : List (Nat × Nat)) (a : Nat),
      (∀ p ∈ polls, p.1 &&& 0xE ≠ 0 ∧ p.2 &&& 0x1 = 0) →
      a < maxAttempts → a + polls.length ≤ maxAttempts →
      trng_poll_loop maxAttempts (polls ++ rest) a
        = if a + polls.length < maxAttempts then
            trng_poll_loop maxAttempts rest (a + polls.length)
          else some maxAttempts := by
  intro polls
  induction polls with
  | nil =>
    intro rest a _ ha _
    simp only [List.nil_append, List.length_nil, Nat.add_zero, if_pos ha]
  | cons p ps ih =>
    intro rest a hfail ha hlen
    obtain ⟨r1, r2⟩ := p
    have h1 : r1 &&& 0xE ≠ 0 := (hfail (r1, r2) (List.mem_cons_self _ _)).1
    have h2 : r2 &&& 0x1 = 0 := (hfail (r1, r2) (List.mem_cons_self _ _)).2
    rw [List.cons_append, trng_poll_loop_cons, if_pos h1]
    simp only [List.length_cons] at hlen ⊢
    by_cases hl : a + 1 < maxAttempts
    · rw [if_pos ⟨h2, hl⟩,
        ih rest (a + 1) (fun q hq => hfail q (List.mem_cons_of_mem _ hq)) hl
          (by omega)]
      by_cases hd : a + 1 + ps.length < maxAttempts
      · rw [if_pos hd, if_pos (show a + (ps.length + 1) < maxAttempts by omega),
          show a + 1 + ps.length = a + (ps.length + 1) by omega]
      · rw [if_neg hd,
          if_neg (show ¬a + (ps.length + 1) < maxAttempts by omega)]
    · rw [if_neg (fun hc => hl hc.2),
        if_neg (show ¬a + (ps.length + 1) < maxAttempts by omega),
        show a + 1 = maxAttempts by omega]

/-- C4: in `trng_get_random`, any execution whose first
`CC3XX_CONFIG_RNG_MAX_ATTEMPTS` polls all fail the hardware health test
(failure bits set, valid bit clear) triggers the fatal path exactly
once — `FATAL_ERR` is reported once, `CC3XX_ERR_RNG_TOO_MANY_ATTEMPTS`
is returned, and no entropy is written to the caller's buffer — while
any execution with at most `MAX_ATTEMPTS − 1` failing polls followed by
a poll on which the valid-data flag is set succeeds and returns the
entropy-register contents in the buffer. -/
theorem rng_C4_health_test_attempts (maxAttempts : Nat) (ehr_data : List Nat)
    (hmax : 0 < maxAttempts) :
    (∀ (polls rest : List (Nat × Nat)),
      polls.length = maxAttempts →
      (∀ p ∈ polls, p.1 &&& 0xE ≠ 0 ∧ p.2 &&& 0x1 = 0) →
      trng_get_random maxAttempts ehr_data (polls ++ rest)
        = some ⟨.tooManyAttempts, none, 1⟩)
    ∧ (∀ (polls rest : List (Nat × Nat)) (s : Nat × Nat),
      polls.length < maxAttempts →
      (∀ p ∈ polls, p.1 &&& 0xE ≠ 0 ∧ p.2 &&& 0x1 = 0) →
      s.1 &&& 0xE = 0 → s.2 &&& 0x1 ≠ 0 →
      trng_get_random maxAttempts ehr_data (polls ++ s :: rest)
        = some ⟨.success, some ehr_data, 0⟩) := by
  constructor
  · intro polls rest hlen hfail
    have hrun := trng_poll_fail_run maxAttempts polls rest 0 hfail hmax
      (by omega)
    rw [if_neg (by omega)] at hrun
    simp [trng_get_random, hrun]
  · intro polls rest s hlen hfail hs1 hs2
    obtain ⟨r1, r2⟩ := s
    replace hs1 : r1 &&& 0xE = 0 := hs1
    replace hs2 : r2 &&& 0x1 ≠ 0 := hs2
    have hrun := trng_poll_fail_run maxAttempts polls ((r1, r2) :: rest) 0
      hfail hmax (by omega)
    rw [if_pos (by omega)] at hrun
    simp only [Nat.zero_add] at hrun
    rw [trng_poll_loop_cons,
      if_neg (show ¬(r1 &&& 0xE ≠ 0) from fun hc => hc hs1)] at hrun
    rw [if_neg (fun hc => hs2 hc.1)] at hrun
    simp only [trng_get_random, hrun]
    rw [if_neg (by omega)]

theorem rng_C4_witness :
    trng_get_random 2 [1, 2, 3, 4, 5, 6] [(2, 0), (2, 0)]
      = some ⟨.tooManyAttempts, none, 1⟩
    ∧ trng_get_random 2 [1, 2, 3, 4, 5, 6] [(2, 0), (1, 1)]
      = some ⟨.success, some [1, 2, 3, 4, 5, 6], 0⟩ := by
  constructor
  · have h := (rng_C4_health_test_attempts 2 [1, 2, 3, 4, 5, 6]
      (by decide)).1 [(2, 0), (2, 0)] [] (by decide) (by decide)
    simpa using h
  · have h := (rng_C4_health_test_attempts 2 [1, 2, 3, 4, 5, 6]
      (by decide)).2 [(2, 0)] [] (1, 1) (by decide) (by decide)
      (by decide) (by decide)
    simpa using h

/-- Bit length (index of the highest set bit, plus one) computed with
explicit fuel; `fuel = 32` covers every `uint32_t` operand. -/
def bitLength : Nat → Nat → Nat
  | 0, _ => 0
  | f + 1, x => if x = 0 then 0 else bitLength f (x / 2) + 1

/-- `__builtin_clz` on a 32-bit operand: `32` minus the bit length.
Undefined in C for operand `0`, which never reaches this computation in
the driver (`bound = 0` takes the single-bit branch). -/
def clz32 (x : Nat) : Nat := 32 - bitLength 32 x

theorem bitLength_zero (f : Nat) : bitLength f 0 = 0 := by
  cases f <;> simp [bitLength]

theorem bitLength_eq_log2 :
    ∀ (f x : Nat), 0 < x → x < 2 ^ f →
      bitLength f x = Nat.log2 x + 1 := by
  intro f
  induction f with
  | zero =>
    intro x hx hlt
    omega
  | succ g ih =>
    intro x hx hlt
    rw [show bitLength (g + 1) x = bitLength g (x / 2) + 1 from by
      simp [bitLength, Nat.pos_iff_ne_zero.mp hx]]
    by_cases h2 : 2 ≤ x
    · have hrec : Nat.log2 x = Nat.log2 (x / 2) + 1 := by
        conv_lhs => rw [Nat.log2]
        simp [h2]
      rw [ih (x / 2) (by omega) (by
        rw [Nat.pow_succ] at hlt
        omega), hrec]
    · have hx1 : x = 1 := by omega
      subst hx1
      rw [show (1 : Nat) / 2 = 0 by decide, bitLength_zero]
      rw [Nat.log2]
      simp

/-- The mask computation at the head of
`cc3xx_lowlevel_rng_get_random_uint`.  The arithmetic is `uint32_t`, so
`bound - 1` wraps for `bound = 0`; that subtraction is modelled as
`(bound + 2^32 - 1) % 2^32`. -/
def rng_uint_mask (bound : Nat) : Nat :=
  if bound &&& ((bound + 2 ^ 32 - 1) % 2 ^ 32) = 0 then
    (bound + 2 ^ 32 - 1) % 2 ^ 32
  else
    (2 ^ 32 - 1) >>> clz32 bound

/-- The do/while rejection loop of `cc3xx_lowlevel_rng_get_random_uint`.
`draws k` is the result of the `k`-th 4-byte
`cc3xx_lowlevel_rng_get_random` call at the requested quality (error
code, and the `uint32_t` assembled in `value`); `k` counts the draws
consumed so far and `attempts` holds the `attempts` counter before the
iteration's `attempts += 1`.  Result: the returned error code, the
value stored through `*uint` (`none` when the function returns before
the store), and the next draw index (so the third component of the
top-level call is the number of draws requested).  `fuel` bounds the
iterations; since each iteration increments `attempts` and the loop
returns once `attempts + 1 ≥ maxAttempts`, `fuel = maxAttempts`
suffices from `attempts = 0` and the fuel-exhaustion branch is then
unreachable. -/
def get_random_uint_loop (maxAttempts : Nat)
    (draws : Nat → cc3xx_err_t × Nat) (bound mask : Nat) :
    Nat → Nat → Nat → cc3xx_err_t × Option Nat × Nat
  | 0, k, _ => (.tooManyAttempts, none, k)
  | fuel + 1, k, attempts =>
    match draws k with
    | (.success, v) =>
      let value := v &&& mask
      if maxAttempts ≤ attempts + 1 then
        (.tooManyAttempts, none, k + 1)
      else if bound ≤ value then
        get_random_uint_loop maxAttempts draws bound mask fuel (k + 1)
          (attempts + 1)
      else
        (.success, some value, k + 1)
    | (e, _) => (e, none, k + 1)

/-- `cc3xx_lowlevel_rng_get_random_uint`.  The `assert(bound != 0)` is
compiled out in release (NDEBUG) builds, so the model continues past a
zero bound exactly as the C then does. -/
def cc3xx_lowlevel_rng_get_random_uint (maxAttempts : Nat)
    (draws : Nat → cc3xx_err_t × Nat) (bound : Nat) :
    cc3xx_err_t × Option Nat × Nat :=
  get_random_uint_loop maxAttempts draws bound (rng_uint_mask bound)
    maxAttempts 0 0

/-- Whenever the rejection loop returns success, the stored value is
the masked value of some accepted draw whose acceptance happened
strictly before the attempt counter could reach the maximum. -/
theorem get_random_uint_loop_success (maxAttempts : Nat)
    (draws : Nat → cc3xx_err_t × Nat) (bound mask : Nat) :
    ∀ (fuel k a : Nat),
      (get_random_uint_loop maxAttempts draws bound mask fuel k a).1
        = .success →
      ∃ j, k ≤ j
        ∧ a + (j - k) + 1 < maxAttempts
        ∧ (draws j).1 = .success
        ∧ get_random_uint_loop maxAttempts draws bound mask fuel k a
            = (.success, some ((draws j).2 &&& mask), j + 1)
        ∧ (draws j).2 &&& mask < bound := by
  intro fuel
  induction fuel with
  | zero =>
    intro k a h
    exact absurd h (by simp [get_random_uint_loop])
  | succ f ih =>
    intro k a h
    rcases hd : draws k with ⟨e, v⟩
    cases e with
    | success =>
      by_cases h1 : maxAttempts ≤ a + 1
      · rw [show get_random_uint_loop maxAttempts draws bound mask (f + 1) k a
            = (.tooManyAttempts, none, k + 1) from by
          simp [get_random_uint_loop, hd, if_pos h1]] at h
        exact absurd h (by simp)
      · by_cases h2 : bound ≤ v &&& mask
        · rw [show get_random_uint_loop maxAttempts draws bound mask (f + 1) k a
              = get_random_uint_loop maxAttempts draws bound mask f (k + 1)
                  (a + 1) from by
            simp [get_random_uint_loop, hd, if_neg h1, if_pos h2]] at h ⊢
          obtain ⟨j, hkj, hja, hjs, hjeq, hjlt⟩ := ih (k + 1) (a + 1) h
          exact ⟨j, by omega, by omega, hjs, hjeq, hjlt⟩
        · refine ⟨k, le_refl k, by omega, by rw [hd], ?_,
            by rw [hd]; show v &&& mask < bound; omega⟩
          rw [show get_random_uint_loop maxAttempts draws bound mask (f + 1) k a
              = (.success, some (v &&& mask), k + 1) from by
            simp [get_random_uint_loop, hd, if_neg h1, if_neg h2], hd]
    | invalidRng =>
      rw [show get_random_uint_loop maxAttempts draws bound mask (f + 1) k a
          = (.invalidRng, none, k + 1) from by
        simp [get_random_uint_loop, hd]] at h
      exact absurd h (by simp)
    | tooManyAttempts =>
      rw [show get_random_uint_loop maxAttempts draws bound mask (f + 1) k a
          = (.tooManyAttempts, none, k + 1) from by
        simp [get_random_uint_loop, hd]] at h
      exact absurd h (by simp)
    | hwFailure =>
      rw [show get_random_uint_loop maxAttempts draws bound mask (f + 1) k a
          = (.hwFailure, none, k + 1) from by
        simp [get_random_uint_loop, hd]] at h
      exact absurd h (by simp)

/-- C1: for every `bound ≥ 1` and any draw oracle (hence either
quality), whenever `cc3xx_lowlevel_rng_get_random_uint` returns
`CC3XX_ERR_SUCCESS` the value it stores through `*uint` is strictly
less than `bound`. -/
theorem rng_C1_uint_below_bound (maxAttempts : Nat)
    (draws : Nat → cc3xx_err_t × Nat) (bound : Nat) (_hb : 1 ≤ bound)
    (hsucc : (cc3xx_lowlevel_rng_get_random_uint maxAttempts draws bound).1
        = .success) :
    ∃ v k', cc3xx_lowlevel_rng_get_random_uint maxAttempts draws bound
        = (.success, some v, k') ∧ v < bound := by
  obtain ⟨j, _, _, _, heq, hlt⟩ :=
    get_random_uint_loop_success maxAttempts draws bound
      (rng_uint_mask bound) maxAttempts 0 0 hsucc
  exact ⟨(draws j).2 &&& rng_uint_mask bound, j + 1, heq, hlt⟩

/-- A draw oracle whose every draw succeeds with value 2. -/
def constSuccessDraws : Nat → cc3xx_err_t × Nat := fun _ => (.success, 2)

theorem rng_C1_witness :
    1 ≤ 5
    ∧ ∃ v k', cc3xx_lowlevel_rng_get_random_uint 4 constSuccessDraws 5
        = (.success, some v, k') ∧ v < 5 :=
  ⟨by decide,
   rng_C1_uint_below_bound 4 constSuccessDraws 5 (by decide) (by decide)⟩

theorem wrap_pred (b : Nat) (h1 : 1 ≤ b) (h2 : b < 2 ^ 32) :
    (b + 2 ^ 32 - 1) % 2 ^ 32 = b - 1 := by
  have h : (2 : Nat) ^ 32 = 4294967296 := by norm_num
  omega

theorem shiftRight_ones (s : Nat) (hs : s ≤ 32) :
    (2 ^ 32 - 1) >>> s = 2 ^ (32 - s) - 1 := by
  rw [Nat.shiftRight_eq_div_pow]
  have hs1 : 1 ≤ (2 : Nat) ^ s := Nat.one_le_two_pow
  have ht1 : 1 ≤ (2 : Nat) ^ (32 - s) := Nat.one_le_two_pow
  have hsm : 1 ≤ (2 : Nat) ^ s * 2 ^ (32 - s) :=
    Nat.mul_pos (by omega) (by omega)
  have h32 : (2 : Nat) ^ 32 = 2 ^ s * 2 ^ (32 - s) := by
    rw [← Nat.pow_add]
    congr 1
    omega
  rw [h32,
    show 2 ^ s * 2 ^ (32 - s) - 1
        = 2 ^ s * (2 ^ (32 - s) - 1) + (2 ^ s - 1) from by
      zify [hs1, ht1, hsm]
      ring,
    Nat.mul_add_div (by omega), Nat.div_eq_of_lt (by omega)]
  omega

/-- C5: the mask computed by `cc3xx_lowlevel_rng_get_random_uint` for a
power-of-two bound equals `bound - 1`, and every draw is then accepted
(masked value always below the bound); for every other bound the mask
is the all-ones 32-bit word shifted right by the count of leading
zeros of `bound`, i.e. the power-of-two-minus-one covering `bound`'s
bit length, which is at least `bound - 1`; for `bound = 10` the mask is
`0xF`, and a draw whose masked value is in `10..15` is rejected: the
loop consumes the draw, increments `attempts` and retries. -/
theorem rng_C5_mask_and_reject :
    (∀ bound : Nat, 1 ≤ bound → bound < 2 ^ 32 →
      bound &&& (bound - 1) = 0 →
      rng_uint_mask bound = bound - 1
      ∧ ∀ v : Nat, v &&& rng_uint_mask bound < bound)
    ∧ (∀ bound : Nat, 1 ≤ bound → bound < 2 ^ 32 →
      bound &&& (bound - 1) ≠ 0 →
      rng_uint_mask bound = (2 ^ 32 - 1) >>> clz32 bound
      ∧ rng_uint_mask bound = 2 ^ (Nat.log2 bound + 1) - 1
      ∧ bound - 1 ≤ rng_uint_mask bound)
    ∧ rng_uint_mask 10 = 0xF
    ∧ (∀ (maxAttempts fuel k a v : Nat) (draws : Nat → cc3xx_err_t × Nat),
      draws k = (.success, v) → 10 ≤ v &&& 0xF → a + 1 < maxAttempts →
      get_random_uint_loop maxAttempts draws 10 0xF (fuel + 1) k a
        = get_random_uint_loop maxAttempts draws 10 0xF fuel (k + 1)
            (a + 1)) := by
  refine ⟨?_, ?_, by decide, ?_⟩
  · intro bound h1 h2 hp
    have hmask : rng_uint_mask bound = bound - 1 := by
      simp only [rng_uint_mask, wrap_pred bound h1 h2, if_pos hp]
    refine ⟨hmask, fun v => ?_⟩
    rw [hmask]
    have hle : v &&& (bound - 1) ≤ bound - 1 := Nat.and_le_right
    omega
  · intro bound h1 h2 hnp
    have hmask : rng_uint_mask bound = (2 ^ 32 - 1) >>> clz32 bound := by
      simp only [rng_uint_mask, wrap_pred bound h1 h2, if_neg hnp]
    have hl32 : Nat.log2 bound < 32 := (Nat.log2_lt (by omega)).mpr h2
    have hclz : clz32 bound = 32 - (Nat.log2 bound + 1) := by
      simp only [clz32, bitLength_eq_log2 32 bound (by omega) h2]
    have hform : rng_uint_mask bound = 2 ^ (Nat.log2 bound + 1) - 1 := by
      rw [hmask, hclz, shiftRight_ones _ (by omega),
        show 32 - (32 - (Nat.log2 bound + 1)) = Nat.log2 bound + 1 from by
          omega]
    refine ⟨hmask, hform, ?_⟩
    have hlt : bound < 2 ^ (Nat.log2 bound + 1) := Nat.lt_log2_self
    omega
  · intro maxAttempts fuel k a v draws hd hv ha
    simp only [get_random_uint_loop, hd]
    rw [if_neg (show ¬maxAttempts ≤ a + 1 by omega), if_pos hv]

/-- A draw oracle whose every draw succeeds with value 12
(`12 &&& 0xF = 12`, rejected for bound 10). -/
def rejectDraws : Nat → cc3xx_err_t × Nat := fun _ => (.success, 12)

theorem rng_C5_witness :
    rng_uint_mask 16 = 16 - 1
    ∧ (123 : Nat) &&& rng_uint_mask 16 < 16
    ∧ rng_uint_mask 10 = (2 ^ 32 - 1) >>> clz32 10
    ∧ rng_uint_mask 10 = 2 ^ (Nat.log2 10 + 1) - 1
    ∧ 10 - 1 ≤ rng_uint_mask 10
    ∧ rng_uint_mask 10 = 0xF
    ∧ get_random_uint_loop 4 rejectDraws 10 0xF 3 0 0
        = get_random_uint_loop 4 rejectDraws 10 0xF 2 1 1 :=
  ⟨(rng_C5_mask_and_reject.1 16 (by decide) (by decide) (by decide)).1,
   (rng_C5_mask_and_reject.1 16 (by decide) (by decide) (by decide)).2 123,
   (rng_C5_mask_and_reject.2.1 10 (by decide) (by decide) (by decide)).1,
   (rng_C5_mask_and_reject.2.1 10 (by decide) (by decide) (by decide)).2.1,
   (rng_C5_mask_and_reject.2.1 10 (by decide) (by decide) (by decide)).2.2,
   rng_C5_mask_and_reject.2.2.1,
   rng_C5_mask_and_reject.2.2.2 4 2 0 0 12 rejectDraws rfl (by decide)
     (by decide)⟩

/-- Running the rejection loop through draws that all succeed and are
all rejected consumes one draw per attempt until the attempt counter
reaches the maximum, at which point the loop returns
`CC3XX_ERR_RNG_TOO_MANY_ATTEMPTS` without storing a value — whatever
the final draw's masked value is, since the counter check precedes the
acceptance test. -/
theorem get_random_uint_loop_reject_run (maxAttempts : Nat)
    (draws : Nat → cc3xx_err_t × Nat) (bound mask : Nat) :
    ∀ (fuel k a : Nat), 1 ≤ fuel → a + fuel = maxAttempts →
      (∀ j, j < fuel → (draws (k + j)).1 = .success) →
      (∀ j, j + 1 < fuel → bound ≤ (draws (k + j)).2 &&& mask) →
      get_random_uint_loop maxAttempts draws bound mask fuel k a
        = (.tooManyAttempts, none, k + fuel) := by
  intro fuel
  induction fuel with
  | zero => omega
  | succ f ih =>
    intro k a hf hmax hsucc hrej
    rcases hd : draws k with ⟨e, v⟩
    have he : e = .success := by
      have := hsucc 0 (by omega)
      rw [Nat.add_zero, hd] at this
      exact this
    subst he
    match f with
    | 0 =>
      simp only [get_random_uint_loop, hd]
      rw [if_pos (by omega)]
    | f' + 1 =>
      rw [show get_random_uint_loop maxAttempts draws bound mask (f' + 1 + 1)
            k a
          = get_random_uint_loop maxAttempts draws bound mask (f' + 1)
              (k + 1) (a + 1) from by
        simp only [get_random_uint_loop, hd]
        rw [if_neg (show ¬maxAttempts ≤ a + 1 by omega),
          if_pos (by
            have := hrej 0 (by omega)
            rw [Nat.add_zero, hd] at this
            exact this)]]
      rw [ih (k + 1) (a + 1) (by omega) (by omega)
        (fun j hj => by
          have := hsucc (j + 1) (by omega)
          rw [show k + (j + 1) = k + 1 + j by omega] at this
          exact this)
        (fun j hj => by
          have := hrej (j + 1) (by omega)
          rw [show k + (j + 1) = k + 1 + j by omega] at this
          exact this)]
      rw [show k + 1 + (f' + 1) = k + (f' + 1 + 1) by omega]

/-- C10: in `cc3xx_lowlevel_rng_get_random_uint` the attempt counter is
incremented and checked against `CC3XX_CONFIG_RNG_MAX_ATTEMPTS` before
the acceptance test, so the draw on which the counter reaches the
maximum is always discarded: when the first `MAX_ATTEMPTS - 1` draws
are rejected, the call returns `CC3XX_ERR_RNG_TOO_MANY_ATTEMPTS` after
consuming exactly `MAX_ATTEMPTS` draws regardless of the final draw's
masked value (in particular even when it is below `bound`), and any
successful call accepted its draw among the first `MAX_ATTEMPTS - 1`
draws. -/
theorem rng_C10_attempt_check_before_accept (maxAttempts : Nat)
    (draws : Nat → cc3xx_err_t × Nat) (bound : Nat)
    (hmax : 1 ≤ maxAttempts) :
    ((∀ k, k < maxAttempts → (draws k).1 = .success) →
      (∀ k, k < maxAttempts - 1 →
        bound ≤ (draws k).2 &&& rng_uint_mask bound) →
      cc3xx_lowlevel_rng_get_random_uint maxAttempts draws bound
        = (.tooManyAttempts, none, maxAttempts))
    ∧ (∀ v k', cc3xx_lowlevel_rng_get_random_uint maxAttempts draws bound
          = (.success, some v, k') → k' ≤ maxAttempts - 1) := by
  constructor
  · intro hsucc hrej
    have h := get_random_uint_loop_reject_run maxAttempts draws bound
      (rng_uint_mask bound) maxAttempts 0 0 (by omega) (by omega)
      (fun j hj => by simpa using hsucc j hj)
      (fun j hj => by simpa using hrej j (by omega))
    simpa [cc3xx_lowlevel_rng_get_random_uint] using h
  · intro v k' h
    have h1 : (cc3xx_lowlevel_rng_get_random_uint maxAttempts draws
        bound).1 = .success := by rw [h]
    obtain ⟨j, _, hja, _, heq, _⟩ := get_random_uint_loop_success maxAttempts
      draws bound (rng_uint_mask bound) maxAttempts 0 0 h1
    rw [show cc3xx_lowlevel_rng_get_random_uint maxAttempts draws bound
        = get_random_uint_loop maxAttempts draws bound (rng_uint_mask bound)
            maxAttempts 0 0 from rfl] at h
    rw [h] at heq
    have : k' = j + 1 := by
      have := congrArg (fun t => t.2.2) heq
      simpa using this
    omega

/-- Draws for the C10 witness with bound 10 and three attempts: the
first two draws (12 and 13) are rejected, the third (5) has masked
value below the bound yet is discarded by the attempt check. -/
def c10draws : Nat → cc3xx_err_t × Nat :=
  fun k => if k = 0 then (.success, 12)
    else if k = 1 then (.success, 13) else (.success, 5)

theorem rng_C10_witness :
    cc3xx_lowlevel_rng_get_random_uint 3 c10draws 10
      = (.tooManyAttempts, none, 3)
    ∧ (c10draws 2).2 &&& rng_uint_mask 10 < 10 :=
  ⟨(rng_C10_attempt_check_before_accept 3 c10draws 10 (by decide)).1
      (by decide) (by decide),
   by decide⟩

/-- C6 counterexample: with the `assert` compiled out (release build),
a call with `bound = 0` does not fail with an invalid-argument error
and is not rejected before hardware interaction: with every backing
draw succeeding and `CC3XX_CONFIG_RNG_MAX_ATTEMPTS = 3`, the call
requests 3 draws from the backing pool (third component nonzero) and
returns `CC3XX_ERR_RNG_TOO_MANY_ATTEMPTS`. -/
theorem rng_C6_counterexample :
    cc3xx_lowlevel_rng_get_random_uint 3 constSuccessDraws 0
      = (.tooManyAttempts, none, 3)
    ∧ (cc3xx_lowlevel_rng_get_random_uint 3 constSuccessDraws 0).2.2 ≠ 0 :=
  ⟨by decide, by decide⟩

/-- C6 amended: a zero bound is guarded only by a debug-build `assert`;
in release builds the call computes an all-ones mask, rejects every
draw (`value >= 0` always holds), requests
`CC3XX_CONFIG_RNG_MAX_ATTEMPTS` draws from the selected backing pool,
and returns `CC3XX_ERR_RNG_TOO_MANY_ATTEMPTS` without storing a
value. -/
theorem rng_C6_zero_bound (maxAttempts : Nat)
    (draws : Nat → cc3xx_err_t × Nat) (hmax : 1 ≤ maxAttempts)
    (hsucc : ∀ k, k < maxAttempts → (draws k).1 = .success) :
    cc3xx_lowlevel_rng_get_random_uint maxAttempts draws 0
      = (.tooManyAttempts, none, maxAttempts) := by
  have h := get_random_uint_loop_reject_run maxAttempts draws 0
    (rng_uint_mask 0) maxAttempts 0 0 (by omega) (by omega)
    (fun j hj => by simpa using hsucc j hj)
    (fun j _ => Nat.zero_le _)
  simpa [cc3xx_lowlevel_rng_get_random_uint] using h

theorem rng_C6_witness :
    1 ≤ 3
    ∧ cc3xx_lowlevel_rng_get_random_uint 3 constSuccessDraws 0
        = (.tooManyAttempts, none, 3) :=
  ⟨by decide, rng_C6_zero_bound 3 constSuccessDraws (by decide) (by decide)⟩

/-- State of `xorshift_plus_128_lfsr`: the 128-bit static `state`
array split into two 64-bit words, the file-scope one-shot
`lfsr_seed_done` flag, and an instrumentation counter of the
cryptographic-pool seed draws (the
`cc3xx_lowlevel_rng_get_random(..., CRYPTOGRAPHICALLY_SECURE)` calls
issued by this function). -/
structure LfsrState where
  seedDone : Bool
  state0 : Nat
  state1 : Nat
  seedDraws : Nat
deriving DecidableEq, Repr

/-- `xorshift_plus_128_lfsr`.  On first use (`!lfsr_seed_done`) the
state is seeded by one cryptographically-secure 128-bit draw — the
`seed` parameter stands for the two words that draw writes — and the
flag is set (regardless of the draw's error code, which the C ignores);
the function then advances the xorshift+ state with 64-bit arithmetic
(`% 2^64` where `<<` and `+` can overflow) and returns
`temp0 + temp1`. -/
def xorshift_plus_128_lfsr (seed : Nat × Nat) (st : LfsrState) :
    Nat × LfsrState :=
  let st1 := if st.seedDone then st
    else ⟨true, seed.1, seed.2, st.seedDraws + 1⟩
  let temp0 := st1.state0
  let temp1 := st1.state1
  let t0a := (temp0 ^^^ (temp0 <<< 23)) % 2 ^ 64
  let t0b := t0a ^^^ (t0a >>> 18)
  let t0c := t0b ^^^ (temp1 ^^^ (temp1 >>> 5))
  ((t0c + temp1) % 2 ^ 64, ⟨st1.seedDone, st1.state1, t0c, st1.seedDraws⟩)

/-- The process-boot state: `state = {0}`, `lfsr_seed_done = false`, no
seed draw made yet. -/
def lfsrInit : LfsrState := ⟨false, 0, 0, 0⟩

/-- `n` successive `xorshift_plus_128_lfsr` calls (i.e. `n` Fast-quality
draws reaching the generator) from state `st`. -/
def lfsr_iter (seed : Nat × Nat) : Nat → LfsrState → LfsrState
  | 0, st => st
  | n + 1, st => lfsr_iter seed n (xorshift_plus_128_lfsr seed st).2

theorem lfsr_iter_seeded (seed : Nat × Nat) :
    ∀ (n : Nat) (st : LfsrState), st.seedDone = true →
      (lfsr_iter seed n st).seedDraws = st.seedDraws
      ∧ (lfsr_iter seed n st).seedDone = true := by
  intro n
  induction n with
  | zero => exact fun st h => ⟨rfl, h⟩
  | succ m ih =>
    intro st h
    have hdone : (xorshift_plus_128_lfsr seed st).2.seedDone = true := by
      simp [xorshift_plus_128_lfsr, h]
    have hdraws : (xorshift_plus_128_lfsr seed st).2.seedDraws
        = st.seedDraws := by
      simp [xorshift_plus_128_lfsr, h]
    rw [show lfsr_iter seed (m + 1) st
        = lfsr_iter seed m (xorshift_plus_128_lfsr seed st).2 from rfl]
    obtain ⟨h1, h2⟩ := ih _ hdone
    exact ⟨h1.trans hdraws, h2⟩

/-- C7: across any number of Fast-quality draws that reach
`xorshift_plus_128_lfsr` within one process lifetime, the
cryptographically-secure seed draw happens at most once: the first call
from the boot state performs the one seed draw and sets the one-shot
`lfsr_seed_done` flag, and from then on the seed-draw count stays at
exactly one. -/
theorem rng_C7_seed_at_most_once (seed : Nat × Nat) (n : Nat) :
    (lfsr_iter seed n lfsrInit).seedDraws ≤ 1
    ∧ (1 ≤ n → (lfsr_iter seed n lfsrInit).seedDraws = 1
        ∧ (lfsr_iter seed n lfsrInit).seedDone = true) := by
  match n with
  | 0 =>
    exact ⟨show (0 : Nat) ≤ 1 by omega, fun h => absurd h (by decide)⟩
  | m + 1 =>
    have hstep : (xorshift_plus_128_lfsr seed lfsrInit).2.seedDone = true
        ∧ (xorshift_plus_128_lfsr seed lfsrInit).2.seedDraws = 1 := by
      simp [xorshift_plus_128_lfsr, lfsrInit]
    have h := lfsr_iter_seeded seed m (xorshift_plus_128_lfsr seed
      lfsrInit).2 hstep.1
    rw [show lfsr_iter seed (m + 1) lfsrInit
        = lfsr_iter seed m (xorshift_plus_128_lfsr seed lfsrInit).2
      from rfl]
    rw [h.1, hstep.2]
    exact ⟨le_refl 1, fun _ => ⟨rfl, h.2⟩⟩

theorem rng_C7_witness :
    (lfsr_iter (5, 7) 3 lfsrInit).seedDraws = 1
    ∧ (lfsr_iter (5, 7) 3 lfsrInit).seedDone = true :=
  (rng_C7_seed_at_most_once (5, 7) 3).2 (by decide)

/-- The initialization loop of
`cc3xx_lowlevel_rng_get_random_permutation`:
`permutation_buf[idx] = idx` stores into a `uint8_t` buffer, so the
stored value is `idx % 256`. -/
def init_permutation (len : Nat) : List Nat :=
  (List.range len).map (fun idx => idx % 256)

/-- The three-assignment exchange through `temp_elem` in
`fisher_yates_shuffle`. -/
def list_swap (l : List Nat) (i j : Nat) : List Nat :=
  (l.set i (l.getD j 0)).set j (l.getD i 0)

/-- The `for` loop of `fisher_yates_shuffle`, one recursive call per
index.  `draws idx` is the result of
`cc3xx_lowlevel_rng_get_random_uint(len - idx, &swap_idx, quality)`:
`some off` when it succeeds with offset `off` (below `len - idx`, by
C1), `none` when it fails — the `continue` leaves that position
unswapped. -/
def fy_go (draws : Nat → Option Nat) : Nat → Nat → List Nat → List Nat
  | 0, _, buf => buf
  | fuel + 1, idx, buf =>
    fy_go draws fuel (idx + 1)
      (match draws idx with
       | none => buf
       | some off => list_swap buf idx (idx + off))

/-- `fisher_yates_shuffle` (built only when
`CC3XX_CONFIG_DPA_MITIGATIONS_ENABLE` is defined): early return for
`len == 0`, otherwise the loop over `idx = 0 .. len - 1`. -/
def fisher_yates_shuffle (draws : Nat → Option Nat) (len : Nat)
    (buf : List Nat) : List Nat :=
  if len = 0 then buf else fy_go draws len 0 buf

/-- `cc3xx_lowlevel_rng_get_random_permutation` with the DPA
countermeasure enabled at build time: initialize the buffer, then
shuffle. -/
def cc3xx_lowlevel_rng_get_random_permutation_dpa
    (draws : Nat → Option Nat) (len : Nat) : List Nat :=
  fisher_yates_shuffle draws len (init_permutation len)

/-- `cc3xx_lowlevel_rng_get_random_permutation` with
`CC3XX_CONFIG_DPA_MITIGATIONS_ENABLE` undefined: only the
initialization loop runs. -/
def cc3xx_lowlevel_rng_get_random_permutation (len : Nat) : List Nat :=
  init_permutation len

/-- Modelled from the spec §4.5 sentence: for index `i`, draw
`swap_index_offset = get_random_uint(length - i, quality)`; on success
let `swap_index = i + swap_index_offset` and exchange the elements at
`i` and `swap_index`; on failure leave position `i` unswapped and
continue. -/
def fisherYatesSpecStep (draws : Nat → Option Nat) (b : List Nat)
    (i : Nat) : List Nat :=
  match draws i with
  | none => b
  | some off => list_swap b i (i + off)

/-- Modelled from the spec §4.5 sentence: apply the step for each index
`i` from `0` to `length - 1` in order. -/
def fisherYatesSpec (draws : Nat → Option Nat) (len : Nat)
    (buf : List Nat) : List Nat :=
  (List.range len).foldl (fisherYatesSpecStep draws) buf

theorem fy_go_eq_foldl (draws : Nat → Option Nat) :
    ∀ (fuel idx : Nat) (buf : List Nat),
      fy_go draws fuel idx buf
        = (List.range' idx fuel).foldl (fisherYatesSpecStep draws) buf := by
  intro fuel
  induction fuel with
  | zero => intro idx buf; rfl
  | succ f ih =>
    intro idx buf
    rw [show fy_go draws (f + 1) idx buf
        = fy_go draws f (idx + 1) (fisherYatesSpecStep draws buf idx)
      from rfl]
    rw [ih (idx + 1) (fisherYatesSpecStep draws buf idx)]
    rfl

/-- C8: with the DPA countermeasure enabled,
`cc3xx_lowlevel_rng_get_random_permutation` computes exactly the
Fisher–Yates process the spec describes — for each `i` from `0` to
`length-1`, on a successful bounded draw of `swap_index_offset` it
exchanges positions `i` and `i + swap_index_offset`, and on a failed
draw it leaves position `i` unswapped and continues — applied to the
initialized buffer, which is the identity sequence whenever
`length ≤ 256` (the representable range of the byte-wide buffer). -/
theorem rng_C8_fisher_yates (draws : Nat → Option Nat) (len : Nat) :
    cc3xx_lowlevel_rng_get_random_permutation_dpa draws len
      = fisherYatesSpec draws len (init_permutation len)
    ∧ (len ≤ 256 → init_permutation len = List.range len) := by
  constructor
  · show fisher_yates_shuffle draws len (init_permutation len) = _
    by_cases h0 : len = 0
    · subst h0
      rfl
    · rw [show fisher_yates_shuffle draws len (init_permutation len)
          = fy_go draws len 0 (init_permutation len) from by
        simp [fisher_yates_shuffle, h0]]
      rw [fy_go_eq_foldl draws len 0 (init_permutation len),
        fisherYatesSpec, List.range_eq_range']
  · intro hlen
    show (List.range len).map (fun idx => idx % 256) = List.range len
    have h : ∀ x ∈ List.range len, x % 256 = x := by
      intro x hx
      rw [List.mem_range] at hx
      omega
    calc (List.range len).map (fun idx => idx % 256)
        = (List.range len).map id := List.map_congr_left h
      _ = List.range len := List.map_id _

/-- The draw oracle for the C8 witness: index 1 fails, the rest
succeed. -/
def c8draws : Nat → Option Nat :=
  fun i => if i = 0 then some 2 else if i = 1 then none
    else if i = 2 then some 1 else some 0

theorem rng_C8_witness :
    cc3xx_lowlevel_rng_get_random_permutation_dpa c8draws 4
      = fisherYatesSpec c8draws 4 (init_permutation 4)
    ∧ init_permutation 4 = List.range 4 :=
  ⟨(rng_C8_fisher_yates c8draws 4).1,
   (rng_C8_fisher_yates c8draws 4).2 (by decide)⟩

set_option maxRecDepth 8192 in
/-- C9 counterexample: with the countermeasure disabled the buffer
elements are `idx % 256` (stores into a `uint8_t` buffer), so for
`length = 257` the result is not the identity sequence
`[0, …, 256]` — element 256 is `0`. -/
theorem rng_C9_counterexample :
    cc3xx_lowlevel_rng_get_random_permutation 257 ≠ List.range 257 := by
  decide

/-- C9 amended: with the power-analysis countermeasure disabled at
build time, element `i` of the returned buffer is `i % 256` (the
`uint8_t` store), so the buffer is exactly the identity sequence
`[0, 1, …, length-1]` for every `length ≤ 256` — in particular
`length = 5` yields `[0,1,2,3,4]` — but not for larger lengths. -/
theorem rng_C9_identity (len : Nat) :
    cc3xx_lowlevel_rng_get_random_permutation len
      = (List.range len).map (fun idx => idx % 256)
    ∧ (len ≤ 256 →
      cc3xx_lowlevel_rng_get_random_permutation len = List.range len) := by
  refine ⟨rfl, fun hlen => ?_⟩
  show (List.range len).map (fun idx => idx % 256) = List.range len
  have h : ∀ x ∈ List.range len, x % 256 = x := by
    intro x hx
    rw [List.mem_range] at hx
    omega
  calc (List.range len).map (fun idx => idx % 256)
      = (List.range len).map id := List.map_congr_left h
    _ = List.range len := List.map_id _

theorem rng_C9_witness :
    cc3xx_lowlevel_rng_get_random_permutation 5 = [0, 1, 2, 3, 4] :=
  (rng_C9_identity 5).2 (by decide)

end CC3XXRng
